import Mathlib

/-!
# Verification of the binary-visualizer core

A shallow embedding, in Lean 4, of the core of the `binary-visualizer`
repository (files `src/table.rs`, `src/ml.rs`; the older duplicate
iteration `src/lib.rs` is embedded where a claim explicitly refers to it),
together with theorems settling the frozen specification claims.

Modelling conventions:

* Rust `u8` byte values become `Fin 256`; `u32` counters become `ℕ`
  with explicit saturation at `2^32 - 1`; `usize` casts are `ℕ`.
* `f32` quantities in the histogram are modelled over `ℚ`.  The natural
  logarithm computed by the Rust code (`(value as f32).ln()`) is treated
  as an abstract parameter `lnf : ℕ → ℚ` giving the `f32` logarithm of
  each (positive) counter value.  The facts used about it — weak
  monotonicity, `lnf 1 = 0`, `0 < lnf 2` — are true of the `f32`
  logarithm on integer arguments and appear as explicit hypotheses.
* The `f32` division performed by `export` is modelled by `fdiv`, which
  returns `none` when the divisor is `0` (the divided values here are
  finite, so a zero divisor is exactly the case where `f32` division
  produces `NaN` or `±inf`), and exact rational division otherwise.
  An `export` cell is therefore `Option ℚ`: `some q` is the finite
  value `q`, `none` marks a non-finite `f32` cell.
* The dataset split computes `(len as f32 * 0.8) as usize`.  This is
  modelled *exactly*: `f32round` performs IEEE-754 round-to-nearest-even
  to a 24-bit significand (exponents are unbounded, which is faithful in
  the magnitude range reached here), and the literal `0.8_f32` is
  `f32round (4/5) = 13421773/2^24`.
-/

/-! ## Histogram extractor (`src/table.rs`) -/

/-- The 256×256 byte-pair table of `src/table.rs`: `dots y x` is the
counter of cell `[y][x]` and `max` the running maximum log-count. -/
structure BinaryTable where
  max : ℚ
  dots : Fin 256 → Fin 256 → ℕ

namespace BinaryTable

/-- Rust `BinaryTable::new`: all counters zero, `max = 0.0`. -/
def new : BinaryTable := { max := 0, dots := fun _ _ => 0 }

/-- Rust `BinaryTable::clear`: resets every counter and `max` to zero. -/
def clear (_t : BinaryTable) : BinaryTable := { max := 0, dots := fun _ _ => 0 }

/-- Rust `u32::saturating_add(1)`: increment, saturating at `u32::MAX`. -/
def satSucc (c : ℕ) : ℕ := min (c + 1) (2 ^ 32 - 1)

/-- One iteration of the `parse` loop of `src/table.rs` on the window
`(xb, yb) = (window[0], window[1])`: saturating-increment `dots[y][x]`,
then fold the log of the new value into `max` if positive. -/
def parseStep (lnf : ℕ → ℚ) (t : BinaryTable) (w : Fin 256 × Fin 256) : BinaryTable :=
  let x := w.1
  let y := w.2
  let value := satSucc (t.dots y x)
  { dots := fun y' x' => if y' = y ∧ x' = x then value else t.dots y' x'
    max := if 0 < value then (if t.max < lnf value then lnf value else t.max) else t.max }

/-- Rust `bytes.windows(2)` as the list of adjacent pairs of the input. -/
def windows2 (bytes : List (Fin 256)) : List (Fin 256 × Fin 256) :=
  bytes.zip bytes.tail

/-- Rust `BinaryTable::parse`: fold `parseStep` over all adjacent byte pairs. -/
def parse (lnf : ℕ → ℚ) (t : BinaryTable) (bytes : List (Fin 256)) : BinaryTable :=
  (windows2 bytes).foldl (parseStep lnf) t

/-- The `f32` division as used by `export`: the operands are finite, so the
result is non-finite (`none`) exactly when the divisor is zero. -/
def fdiv (n d : ℚ) : Option ℚ :=
  if d = 0 then none else some (n / d)

/-- One cell of `BinaryTable::export`: `0.0` for an untouched counter,
otherwise `ln(value) / max`. -/
def exportCell (lnf : ℕ → ℚ) (t : BinaryTable) (y x : Fin 256) : Option ℚ :=
  if t.dots y x = 0 then some 0 else fdiv (lnf (t.dots y x)) t.max

/-- Rust `BinaryTable::export` (named `exportVec` here, since `export` is a
Lean keyword): the row-major 65536-element feature vector,
cell `y*256 + x` holding `exportCell y x`. -/
def exportVec (lnf : ℕ → ℚ) (t : BinaryTable) : List (Option ℚ) :=
  (List.finRange 256).flatMap fun y => (List.finRange 256).map fun x => exportCell lnf t y x

/-- The largest counter value in the table. -/
def maxCount (t : BinaryTable) : ℕ :=
  Finset.univ.sup fun p : Fin 256 × Fin 256 => t.dots p.1 p.2

end BinaryTable

namespace BinaryTable

theorem clear_eq_new (t : BinaryTable) : clear t = new := rfl

theorem windows2_eq_nil {bytes : List (Fin 256)} (h : bytes.length ≤ 1) :
    windows2 bytes = [] := by
  match bytes with
  | [] => rfl
  | [a] => rfl
  | a :: b :: l => simp at h

theorem parse_short {lnf : ℕ → ℚ} {t : BinaryTable} {bytes : List (Fin 256)}
    (h : bytes.length ≤ 1) : parse lnf t bytes = t := by
  unfold parse
  rw [windows2_eq_nil h]
  rfl

theorem flatMap_const_replicate {α β : Type} (c : β) (m : ℕ) : ∀ l : List α,
    (l.flatMap fun _ => List.replicate m c) = List.replicate (l.length * m) c
  | [] => by simp
  | a :: l => by
    rw [List.flatMap_cons, flatMap_const_replicate c m l, List.length_cons,
      Nat.succ_mul, Nat.add_comm, List.replicate_add]

theorem exportVec_of_dots_zero (lnf : ℕ → ℚ) (t : BinaryTable)
    (h : ∀ y x, t.dots y x = 0) :
    exportVec lnf t = List.replicate 65536 (some (0 : ℚ)) := by
  have hc : ∀ y x, exportCell lnf t y x = some 0 := by
    intro y x
    simp [exportCell, h]
  unfold exportVec
  simp only [hc, List.map_const', List.length_finRange]
  rw [flatMap_const_replicate]
  norm_num

end BinaryTable

/-- A concrete stand-in for the `f32` logarithm, used in witnesses and
counterexamples: it is monotone, vanishes at `1` and is positive at `2`,
the only facts the theorems assume of the real `f32` logarithm. -/
def lnTab (n : ℕ) : ℚ := ((n - 1 : ℕ) : ℚ)

theorem lnTab_monotone : Monotone lnTab := fun _ _ h =>
  Nat.cast_le.2 (Nat.sub_le_sub_right h 1)

theorem lnTab_one : lnTab 1 = 0 := by decide

theorem lnTab_two_pos : 0 < lnTab 2 := by decide

/-- Claim C2: For every byte buffer of length 0 or 1, parsing it into a fresh
(or cleared) histogram and exporting yields the all-zero feature vector of
length 65536 (every cell is the finite value `0.0`; no `NaN`/`inf` cell,
since the zero-count special case never divides by `max`).  Stated for any
`f32` logarithm `lnf`. -/
theorem c2_short_buffer_exports_all_zero (lnf : ℕ → ℚ) (t : BinaryTable)
    (bytes : List (Fin 256)) (h : bytes.length ≤ 1) :
    BinaryTable.exportVec lnf (BinaryTable.parse lnf (BinaryTable.clear t) bytes)
        = List.replicate 65536 (some (0 : ℚ)) ∧
      BinaryTable.exportVec lnf (BinaryTable.parse lnf BinaryTable.new bytes)
        = List.replicate 65536 (some (0 : ℚ)) := by
  rw [BinaryTable.clear_eq_new, BinaryTable.parse_short h]
  constructor <;> exact BinaryTable.exportVec_of_dots_zero lnf _ (fun _ _ => rfl)

/-- Witness for C2 at the concrete empty buffer and the singleton buffer. -/
theorem c2_short_buffer_exports_all_zero_witness :
    ([] : List (Fin 256)).length ≤ 1 ∧ [(97 : Fin 256)].length ≤ 1 ∧
      BinaryTable.exportVec lnTab (BinaryTable.parse lnTab BinaryTable.new [(97 : Fin 256)])
        = List.replicate 65536 (some (0 : ℚ)) :=
  ⟨by decide, by decide,
    (c2_short_buffer_exports_all_zero lnTab BinaryTable.new [(97 : Fin 256)] (by decide)).2⟩

namespace BinaryTable

/-- The parse invariant: counters are `u32` values, and the running `max`
field is the log of the largest counter (with `lnf 1 = 0` standing in
when the table is empty, so the two cases coincide at `max (maxCount t) 1`). -/
def Inv (lnf : ℕ → ℚ) (t : BinaryTable) : Prop :=
  (∀ y x, t.dots y x ≤ 2 ^ 32 - 1) ∧ t.max = lnf (Max.max (maxCount t) 1)

theorem dots_le_maxCount (t : BinaryTable) (y x : Fin 256) : t.dots y x ≤ maxCount t :=
  Finset.le_sup (f := fun p : Fin 256 × Fin 256 => t.dots p.1 p.2)
    (Finset.mem_univ (y, x))

theorem maxCount_le (t : BinaryTable) (n : ℕ) (h : ∀ y x, t.dots y x ≤ n) :
    maxCount t ≤ n :=
  Finset.sup_le fun p _ => h p.1 p.2

theorem if_lt_eq_max (a b : ℚ) : (if a < b then b else a) = Max.max a b := by
  rcases lt_or_le a b with h | h
  · simp [h, max_eq_right h.le]
  · simp [not_lt.2 h, max_eq_left h]

theorem maxCount_parseStep (lnf : ℕ → ℚ) (t : BinaryTable) (w : Fin 256 × Fin 256)
    (hle : t.dots w.2 w.1 ≤ 2 ^ 32 - 1) :
    maxCount (parseStep lnf t w) = Max.max (maxCount t) (satSucc (t.dots w.2 w.1)) := by
  apply le_antisymm
  · apply maxCount_le
    intro y x
    by_cases hc : y = w.2 ∧ x = w.1
    · simp [parseStep, hc]
    · simp only [parseStep, if_neg hc]
      exact le_max_of_le_left (dots_le_maxCount t y x)
  · apply max_le
    · apply maxCount_le
      intro y x
      by_cases hc : y = w.2 ∧ x = w.1
      · have h1 : t.dots y x ≤ satSucc (t.dots w.2 w.1) := by
          rcases hc with ⟨hy, hx⟩
          subst hy hx
          have := hle
          unfold satSucc
          omega
        calc t.dots y x ≤ satSucc (t.dots w.2 w.1) := h1
          _ = (parseStep lnf t w).dots w.2 w.1 := by simp [parseStep]
          _ ≤ maxCount (parseStep lnf t w) := dots_le_maxCount _ _ _
      · calc t.dots y x = (parseStep lnf t w).dots y x := by simp [parseStep, if_neg hc]
          _ ≤ maxCount (parseStep lnf t w) := dots_le_maxCount _ _ _
    · calc satSucc (t.dots w.2 w.1) = (parseStep lnf t w).dots w.2 w.1 := by
            simp [parseStep]
        _ ≤ maxCount (parseStep lnf t w) := dots_le_maxCount _ _ _

theorem one_le_satSucc (c : ℕ) : 1 ≤ satSucc c := by
  unfold satSucc
  have : (1 : ℕ) ≤ 2 ^ 32 - 1 := by norm_num
  omega

theorem inv_parseStep (lnf : ℕ → ℚ) (hmono : Monotone lnf) (t : BinaryTable)
    (w : Fin 256 × Fin 256) (hinv : Inv lnf t) : Inv lnf (parseStep lnf t w) := by
  obtain ⟨hle, hmax⟩ := hinv
  constructor
  · intro y x
    by_cases hc : y = w.2 ∧ x = w.1
    · simp only [parseStep, if_pos hc]
      exact min_le_right _ _
    · simp only [parseStep, if_neg hc]
      exact hle y x
  · have hv1 : 1 ≤ satSucc (t.dots w.2 w.1) := one_le_satSucc _
    have hpos : 0 < satSucc (t.dots w.2 w.1) := hv1
    show (if 0 < satSucc (t.dots w.2 w.1) then _ else _) = _
    rw [if_pos hpos, if_lt_eq_max, maxCount_parseStep lnf t w (hle w.2 w.1), hmax,
      ← hmono.map_max]
    exact congrArg lnf (by omega)

theorem inv_foldl (lnf : ℕ → ℚ) (hmono : Monotone lnf) :
    ∀ (l : List (Fin 256 × Fin 256)) (t : BinaryTable), Inv lnf t →
      Inv lnf (l.foldl (parseStep lnf) t)
  | [], _, hinv => hinv
  | w :: l, t, hinv =>
    inv_foldl lnf hmono l (parseStep lnf t w) (inv_parseStep lnf hmono t w hinv)

theorem inv_new (lnf : ℕ → ℚ) (h1 : lnf 1 = 0) : Inv lnf new := by
  constructor
  · intro y x
    exact Nat.zero_le _
  · have : maxCount new = 0 := by
      apply Nat.le_zero.1
      exact maxCount_le new 0 fun _ _ => le_refl 0
    rw [this]
    simpa using h1.symm

theorem inv_parse (lnf : ℕ → ℚ) (hmono : Monotone lnf) (h1 : lnf 1 = 0)
    (bytes : List (Fin 256)) : Inv lnf (parse lnf new bytes) :=
  inv_foldl lnf hmono (windows2 bytes) new (inv_new lnf h1)

end BinaryTable

namespace BinaryTable

theorem max_pos_of_two_le (lnf : ℕ → ℚ) (hmono : Monotone lnf) (h2 : 0 < lnf 2)
    (t : BinaryTable) (hinv : Inv lnf t) (hmc : 2 ≤ maxCount t) :
    t.max = lnf (maxCount t) ∧ 0 < t.max := by
  have habs : Max.max (maxCount t) 1 = maxCount t := Nat.max_eq_left (by omega)
  have heq : t.max = lnf (maxCount t) := by rw [hinv.2, habs]
  refine ⟨heq, ?_⟩
  rw [heq]
  exact lt_of_lt_of_le h2 (hmono hmc)

end BinaryTable

/-- Claim C3, amended: Let `t` be the histogram parsed from an arbitrary
byte buffer.  (1) *Provided some byte pair occurs at least twice* (the
amendment: the original claim asserted this for every buffer), every
element of the exported feature vector is a finite value in `[0, 1]`.
(2) As claimed, whenever the buffer contains more than one distinct byte
pair, the cell of the single most frequent pair (strictly more frequent
than every other) exports exactly `1.0`. -/
theorem c3_amended (lnf : ℕ → ℚ) (hmono : Monotone lnf) (h1 : lnf 1 = 0)
    (h2 : 0 < lnf 2) (bytes : List (Fin 256)) :
    ((∃ y x, 2 ≤ (BinaryTable.parse lnf BinaryTable.new bytes).dots y x) →
      ∀ v ∈ BinaryTable.exportVec lnf (BinaryTable.parse lnf BinaryTable.new bytes),
        ∃ q, v = some q ∧ 0 ≤ q ∧ q ≤ 1) ∧
    (∀ y x,
      (∃ y' x', (y' ≠ y ∨ x' ≠ x) ∧
        1 ≤ (BinaryTable.parse lnf BinaryTable.new bytes).dots y' x') →
      (∀ y' x', (y' ≠ y ∨ x' ≠ x) →
        (BinaryTable.parse lnf BinaryTable.new bytes).dots y' x'
          < (BinaryTable.parse lnf BinaryTable.new bytes).dots y x) →
      BinaryTable.exportCell lnf (BinaryTable.parse lnf BinaryTable.new bytes) y x
        = some 1) := by
  have hinv := BinaryTable.inv_parse lnf hmono h1 bytes
  set t := BinaryTable.parse lnf BinaryTable.new bytes with ht
  constructor
  · rintro ⟨y0, x0, h2c⟩ v hv
    have hmc : 2 ≤ BinaryTable.maxCount t :=
      le_trans h2c (BinaryTable.dots_le_maxCount t y0 x0)
    obtain ⟨heq, hpos⟩ := BinaryTable.max_pos_of_two_le lnf hmono h2 t hinv hmc
    rw [BinaryTable.exportVec, List.mem_flatMap] at hv
    obtain ⟨y, -, hv⟩ := hv
    rw [List.mem_map] at hv
    obtain ⟨x, -, rfl⟩ := hv
    rw [BinaryTable.exportCell]
    by_cases hc0 : t.dots y x = 0
    · rw [if_pos hc0]
      exact ⟨0, rfl, le_refl 0, by norm_num⟩
    · rw [if_neg hc0, BinaryTable.fdiv, if_neg (ne_of_gt hpos)]
      refine ⟨lnf (t.dots y x) / t.max, rfl, ?_, ?_⟩
      · apply div_nonneg _ hpos.le
        have := hmono (Nat.one_le_iff_ne_zero.2 hc0)
        rw [h1] at this
        exact this
      · rw [div_le_one hpos, heq]
        exact hmono (BinaryTable.dots_le_maxCount t y x)
  · rintro y x ⟨y', x', hne, hone⟩ hstrict
    have hlt : t.dots y' x' < t.dots y x := hstrict y' x' hne
    have h2c : 2 ≤ t.dots y x := by omega
    have hmc : BinaryTable.maxCount t = t.dots y x := by
      apply le_antisymm
      · apply BinaryTable.maxCount_le
        intro a b
        by_cases hab : a ≠ y ∨ b ≠ x
        · exact (hstrict a b hab).le
        · push_neg at hab
          rw [hab.1, hab.2]
      · exact BinaryTable.dots_le_maxCount t y x
    obtain ⟨heq, hpos⟩ := BinaryTable.max_pos_of_two_le lnf hmono h2 t hinv (hmc ▸ h2c)
    have hlnf : 0 < lnf (t.dots y x) := by
      rw [heq, hmc] at hpos
      exact hpos
    rw [BinaryTable.exportCell, if_neg (by omega), BinaryTable.fdiv,
      if_neg (ne_of_gt hpos), heq, hmc, div_self (ne_of_gt hlnf)]

/-- Counterexample to **C3** as stated: for the two-byte buffer `[0, 0]`
the single pair `(0,0)` has count 1, the running `max` log-count is
`ln 1 = 0`, and the cell exports `ln(1)/0.0 = 0.0/0.0 = NaN` (modelled
as `none`), which does not lie in `[0, 1]`.  `lnTab` satisfies all the
facts the development assumes of the `f32` logarithm. -/
theorem c3_counterexample :
    Monotone lnTab ∧ lnTab 1 = 0 ∧ 0 < lnTab 2 ∧
      (none : Option ℚ) ∈
        BinaryTable.exportVec lnTab
          (BinaryTable.parse lnTab BinaryTable.new [(0 : Fin 256), 0]) ∧
      ¬(∀ v ∈ BinaryTable.exportVec lnTab
            (BinaryTable.parse lnTab BinaryTable.new [(0 : Fin 256), 0]),
          ∃ q, v = some q ∧ 0 ≤ q ∧ q ≤ 1) := by
  have hmem : (none : Option ℚ) ∈
      BinaryTable.exportVec lnTab
        (BinaryTable.parse lnTab BinaryTable.new [(0 : Fin 256), 0]) := by
    rw [BinaryTable.exportVec, List.mem_flatMap]
    refine ⟨0, List.mem_finRange 0, ?_⟩
    rw [List.mem_map]
    exact ⟨0, List.mem_finRange 0, by decide⟩
  refine ⟨lnTab_monotone, lnTab_one, lnTab_two_pos, hmem, fun hall => ?_⟩
  obtain ⟨q, hq, -, -⟩ := hall none hmem
  exact Option.noConfusion hq

/-- Witness for C3 (amended) on the buffer `[0,0,0]`, whose pair `(0,0)`
occurs twice: part (1) applies with a satisfied hypothesis. -/
theorem c3_amended_witness :
    Monotone lnTab ∧ lnTab 1 = 0 ∧ 0 < lnTab 2 ∧
      2 ≤ (BinaryTable.parse lnTab BinaryTable.new [(0 : Fin 256), 0, 0]).dots 0 0 ∧
      (∀ v ∈ BinaryTable.exportVec lnTab
          (BinaryTable.parse lnTab BinaryTable.new [(0 : Fin 256), 0, 0]),
        ∃ q, v = some q ∧ 0 ≤ q ∧ q ≤ 1) :=
  ⟨lnTab_monotone, lnTab_one, lnTab_two_pos, by decide,
    (c3_amended lnTab lnTab_monotone lnTab_one lnTab_two_pos
      [(0 : Fin 256), 0, 0]).1 ⟨0, 0, by decide⟩⟩

/-! ## Classifier (`src/ml.rs`), and the score-array consumer of the older
iteration (`src/lib.rs`) -/

def N_INPUT : ℕ := 256 * 256

def N_HIDDEN_1 : ℕ := 512

def N_OUTPUT : ℕ := 5

/-- The `FileType` enumeration of `src/ml.rs`. -/
inductive FileType
  | Text
  | Binary
  | Jpeg
  | Pdf
  | Wav
deriving DecidableEq

/-- Rust `FileType::output` (`src/ml.rs`): the `u32` training label. -/
def FileType.output : FileType → ℕ
  | .Text => 0
  | .Binary => 1
  | .Jpeg => 2
  | .Pdf => 3
  | .Wav => 4

/-- Rust `FileType::from_prediction` (`src/ml.rs`): maps a winning index back to
a file type; indices outside `0..=4` give `None`. -/
def FileType.from_prediction : ℕ → Option FileType
  | 0 => some .Text
  | 1 => some .Binary
  | 2 => some .Jpeg
  | 3 => some .Pdf
  | 4 => some .Wav
  | _ => none

/-- Modelled from the spec: candle's `Tensor::argmax` over the last
dimension (candle is an external dependency of `src/ml.rs`), "the arg-max
index … first-encountered maximum under a stable max-scan": the running
best is replaced only by a strictly greater value. `pos` is the index of
the next element, `(bi, bv)` the running best index and value. -/
def argmaxFirstGo : List ℚ → ℕ → ℕ → ℚ → ℕ × ℚ
  | [], _, bi, bv => (bi, bv)
  | v :: tl, pos, bi, bv =>
    if bv < v then argmaxFirstGo tl (pos + 1) pos v else argmaxFirstGo tl (pos + 1) bi bv

/-- Modelled from the spec: the arg-max index of a logit row (first index
on ties), as returned by `Network::predict` in `src/ml.rs`. -/
def argmaxFirst (l : List ℚ) : ℕ :=
  match l with
  | [] => 0
  | v :: tl => (argmaxFirstGo tl 1 0 v).1

/-- The fold of Rust's `Iterator::max_by` over `enumerate()`d values, as
used by `FileType::from_prediction` in `src/lib.rs`: the comparator sees
only the values, and `max_by` keeps the accumulator only when it is
strictly greater — so the *last* maximal element wins. -/
def maxByGo : List ℚ → ℕ → ℕ → ℚ → ℕ × ℚ
  | [], _, bi, bv => (bi, bv)
  | v :: tl, pos, bi, bv =>
    if v < bv then maxByGo tl (pos + 1) bi bv else maxByGo tl (pos + 1) pos v

/-- The index selected by
`output.iter().enumerate().max_by(|(_, l), (_, r)| l.total_cmp(r)).map(|(i, _)| i)`
in `src/lib.rs` (`None` on an empty slice). -/
def libMaxIdx (output : List ℚ) : Option ℕ :=
  match output with
  | [] => none
  | v :: tl => some (maxByGo tl 1 0 v).1

/-- The `FileType` enumeration of the older iteration `src/lib.rs`. -/
inductive LibFileType
  | Text
  | Binary
  | Png
  | Wav
  | Ogg
deriving DecidableEq

/-- Rust `FileType::from_prediction` (`src/lib.rs`): pick the maximal score's
index by `max_by`, then map indices `0..=4` to file types. -/
def LibFileType.from_prediction (output : List ℚ) : Option LibFileType :=
  match libMaxIdx output with
  | none => none
  | some 0 => some .Text
  | some 1 => some .Binary
  | some 2 => some .Png
  | some 3 => some .Wav
  | some 4 => some .Ogg
  | some _ => none

/-- A linear layer: candle's `Linear` holds `weight : (out, in)` and
`bias : (out,)`, and `forward` is the affine map. -/
structure Linear (inF outF : ℕ) where
  weight : Fin outF → Fin inF → ℚ
  bias : Fin outF → ℚ

/-- Candle `Linear::forward` on one sample (candle broadcasts this over the
batch dimension; every row is treated independently). -/
def Linear.forward {i o : ℕ} (l : Linear i o) (x : Fin i → ℚ) : Fin o → ℚ :=
  fun j => (∑ k, l.weight j k * x k) + l.bias j

/-- Candle `Tensor::relu`, elementwise `max(x, 0)`. -/
def relu (q : ℚ) : ℚ := Max.max q 0

/-- The `Network` of `src/ml.rs` as built by `Network::new`: note the second
layer is `linear(N_HIDDEN_1, N_OUTPUT + 1)` — six outputs. -/
structure Network where
  ln1 : Linear N_INPUT N_HIDDEN_1
  ln2 : Linear N_HIDDEN_1 (N_OUTPUT + 1)

/-- Rust `Network::forward`: affine → ReLU → affine, on one sample. -/
def Network.forward (net : Network) (x : Fin N_INPUT → ℚ) : Fin (N_OUTPUT + 1) → ℚ :=
  net.ln2.forward fun j => relu (net.ln1.forward x j)

/-- The logit row of `forward` on one sample, as a list. -/
def Network.logits (net : Network) (x : Fin N_INPUT → ℚ) : List ℚ :=
  (List.finRange (N_OUTPUT + 1)).map (net.forward x)

/-- Rust `Network::predict` (`src/ml.rs`): wrap one feature vector as a batch
of 1, run `forward`, return the arg-max index as `u32`.  Stated on the
(finite-valued) feature vector produced by `export`. -/
def Network.predict (net : Network) (x : Fin N_INPUT → ℚ) : ℕ :=
  argmaxFirst (net.logits x)

/-- The tensor shapes `Network::new` declares and `VarMap::save` persists:
candle's `linear(in, out)` registers `weight : (out, in)` and `bias :
(out,)` under the names given by the builder. -/
def checkpointShapes : List (String × List ℕ) :=
  [("ln1.weight", [N_HIDDEN_1, N_INPUT]), ("ln1.bias", [N_HIDDEN_1]),
    ("ln2.weight", [N_OUTPUT + 1, N_HIDDEN_1]), ("ln2.bias", [N_OUTPUT + 1])]

/-- Full characterisation of the first-max scan: the result is the seed or
an element of the list, its value dominates seed and list, and — when it
is a list element — every element strictly before it (and the seed) is
strictly below it. -/
theorem argmaxFirstGo_spec : ∀ (vs : List ℚ) (pos bi : ℕ) (bv : ℚ),
    ((argmaxFirstGo vs pos bi bv = (bi, bv)) ∨
      ∃ m, m < vs.length ∧ argmaxFirstGo vs pos bi bv = (pos + m, vs.getD m 0) ∧
        bv < (argmaxFirstGo vs pos bi bv).2 ∧
        ∀ m' < m, vs.getD m' 0 < (argmaxFirstGo vs pos bi bv).2) ∧
      bv ≤ (argmaxFirstGo vs pos bi bv).2 ∧
      ∀ m < vs.length, vs.getD m 0 ≤ (argmaxFirstGo vs pos bi bv).2
  | [], pos, bi, bv => by
    refine ⟨Or.inl rfl, le_refl _, ?_⟩
    intro m hm
    simp at hm
  | v :: tl, pos, bi, bv => by
    by_cases hlt : bv < v
    · have IH := argmaxFirstGo_spec tl (pos + 1) pos v
      have hr : argmaxFirstGo (v :: tl) pos bi bv = argmaxFirstGo tl (pos + 1) pos v := by
        simp only [argmaxFirstGo, if_pos hlt]
      rw [hr]
      obtain ⟨IH1, IHseed, IHall⟩ := IH
      refine ⟨Or.inr ?_, le_trans hlt.le IHseed, ?_⟩
      · rcases IH1 with heq | ⟨m, hm, heq, hv, hfirst⟩
        · refine ⟨0, by simp, by simpa using heq, ?_, ?_⟩
          · rw [heq]
            exact hlt
          · intro m' hm'
            omega
        · refine ⟨m + 1, by simpa using hm, ?_, lt_trans hlt hv, ?_⟩
          · rw [heq]
            have : pos + (m + 1) = pos + 1 + m := by omega
            rw [this]
            simp
          · intro m' hm'
            match m', hm' with
            | 0, _ => simpa using hv
            | m'' + 1, hm' => simpa using hfirst m'' (by omega)
      · intro m hm
        match m, hm with
        | 0, _ => simpa using IHseed
        | m'' + 1, hm => simpa using IHall m'' (by simpa using hm)
    · have IH := argmaxFirstGo_spec tl (pos + 1) bi bv
      have hr : argmaxFirstGo (v :: tl) pos bi bv = argmaxFirstGo tl (pos + 1) bi bv := by
        simp only [argmaxFirstGo, if_neg hlt]
      rw [hr]
      obtain ⟨IH1, IHseed, IHall⟩ := IH
      have hvle : v ≤ bv := not_lt.1 hlt
      refine ⟨?_, IHseed, ?_⟩
      · rcases IH1 with heq | ⟨m, hm, heq, hv, hfirst⟩
        · exact Or.inl heq
        · refine Or.inr ⟨m + 1, by simpa using hm, ?_, hv, ?_⟩
          · rw [heq]
            have : pos + (m + 1) = pos + 1 + m := by omega
            rw [this]
            simp
          · intro m' hm'
            match m', hm' with
            | 0, _ => simpa using lt_of_le_of_lt hvle hv
            | m'' + 1, hm' => simpa using hfirst m'' (by omega)
      · intro m hm
        match m, hm with
        | 0, _ => simpa using le_trans hvle IHseed
        | m'' + 1, hm => simpa using IHall m'' (by simpa using hm)

/-- The arg-max of `src/ml.rs`'s prediction path: an in-range index whose
value dominates the row, with every *earlier* element strictly smaller —
i.e. the lowest index attaining the maximum. -/
theorem argmaxFirst_spec (l : List ℚ) (hl : l ≠ []) :
    argmaxFirst l < l.length ∧
      (∀ j < l.length, l.getD j 0 ≤ l.getD (argmaxFirst l) 0) ∧
      ∀ j < argmaxFirst l, l.getD j 0 < l.getD (argmaxFirst l) 0 := by
  match l with
  | [] => exact absurd rfl hl
  | v :: tl =>
    obtain ⟨h1, hseed, hall⟩ := argmaxFirstGo_spec tl 1 0 v
    have hidx : argmaxFirst (v :: tl) = (argmaxFirstGo tl 1 0 v).1 := rfl
    rcases h1 with heq | ⟨m, hm, heq, hv, hfirst⟩
    · have h0 : argmaxFirst (v :: tl) = 0 := by rw [hidx, heq]
      have hval : (v :: tl).getD (argmaxFirst (v :: tl)) 0 = (argmaxFirstGo tl 1 0 v).2 := by
        rw [h0, heq]
        simp
      refine ⟨by simp [h0], ?_, ?_⟩
      · intro j hj
        rw [hval]
        match j, hj with
        | 0, _ => simpa using hseed
        | m'' + 1, hj => simpa using hall m'' (by simpa using hj)
      · intro j hj
        rw [h0] at hj
        omega
    · have h0 : argmaxFirst (v :: tl) = m + 1 := by
        rw [hidx, heq]
        omega
      have hval : (v :: tl).getD (argmaxFirst (v :: tl)) 0 = (argmaxFirstGo tl 1 0 v).2 := by
        rw [h0, heq]
        simp
      refine ⟨by simp [h0]; omega, ?_, ?_⟩
      · intro j hj
        rw [hval]
        match j, hj with
        | 0, _ => simpa using hv.le
        | m'' + 1, hj => simpa using hall m'' (by simpa using hj)
      · intro j hj
        rw [hval]
        rw [h0] at hj
        match j, hj with
        | 0, _ => simpa using hv
        | m'' + 1, hj => simpa using hfirst m'' (by omega)

/-- Full characterisation of Rust's `max_by` fold: the result is the seed
(and then everything in the list is strictly below the seed) or an element
of the list, its value dominates seed and list, and every element strictly
*after* it is strictly below it. -/
theorem maxByGo_spec : ∀ (vs : List ℚ) (pos bi : ℕ) (bv : ℚ),
    ((maxByGo vs pos bi bv = (bi, bv) ∧ ∀ m < vs.length, vs.getD m 0 < bv) ∨
      ∃ m, m < vs.length ∧ maxByGo vs pos bi bv = (pos + m, vs.getD m 0) ∧
        bv ≤ (maxByGo vs pos bi bv).2 ∧
        ∀ m', m < m' → m' < vs.length → vs.getD m' 0 < (maxByGo vs pos bi bv).2) ∧
      bv ≤ (maxByGo vs pos bi bv).2 ∧
      ∀ m < vs.length, vs.getD m 0 ≤ (maxByGo vs pos bi bv).2
  | [], pos, bi, bv => by
    refine ⟨Or.inl ⟨rfl, ?_⟩, le_refl _, ?_⟩ <;>
      · intro m hm
        simp at hm
  | v :: tl, pos, bi, bv => by
    by_cases hlt : v < bv
    · have IH := maxByGo_spec tl (pos + 1) bi bv
      have hr : maxByGo (v :: tl) pos bi bv = maxByGo tl (pos + 1) bi bv := by
        simp only [maxByGo, if_pos hlt]
      rw [hr]
      obtain ⟨IH1, IHseed, IHall⟩ := IH
      refine ⟨?_, IHseed, ?_⟩
      · rcases IH1 with ⟨heq, hall⟩ | ⟨m, hm, heq, hle, hafter⟩
        · refine Or.inl ⟨heq, ?_⟩
          intro m hm
          match m, hm with
          | 0, _ => simpa using hlt
          | m'' + 1, hm => simpa using hall m'' (by simpa using hm)
        · refine Or.inr ⟨m + 1, by simpa using hm, ?_, hle, ?_⟩
          · rw [heq]
            have : pos + (m + 1) = pos + 1 + m := by omega
            rw [this]
            simp
          · intro m' h1 h2
            match m', h1, h2 with
            | m'' + 1, h1, h2 => simpa using hafter m'' (by omega) (by simpa using h2)
      · intro m hm
        match m, hm with
        | 0, _ => simpa using le_trans hlt.le IHseed
        | m'' + 1, hm => simpa using IHall m'' (by simpa using hm)
    · have IH := maxByGo_spec tl (pos + 1) pos v
      have hr : maxByGo (v :: tl) pos bi bv = maxByGo tl (pos + 1) pos v := by
        simp only [maxByGo, if_neg hlt]
      rw [hr]
      obtain ⟨IH1, IHseed, IHall⟩ := IH
      have hble : bv ≤ v := not_lt.1 hlt
      refine ⟨Or.inr ?_, le_trans hble IHseed, ?_⟩
      · rcases IH1 with ⟨heq, hall⟩ | ⟨m, hm, heq, hle, hafter⟩
        · refine ⟨0, by simp, by simpa using heq, le_trans hble IHseed, ?_⟩
          intro m' h1 h2
          match m', h1, h2 with
          | m'' + 1, h1, h2 =>
            have := hall m'' (by simpa using h2)
            rw [heq]
            simpa using this
        · refine ⟨m + 1, by simpa using hm, ?_, le_trans hble IHseed, ?_⟩
          · rw [heq]
            have : pos + (m + 1) = pos + 1 + m := by omega
            rw [this]
            simp
          · intro m' h1 h2
            match m', h1, h2 with
            | m'' + 1, h1, h2 => simpa using hafter m'' (by omega) (by simpa using h2)
      · intro m hm
        match m, hm with
        | 0, _ => simpa using IHseed
        | m'' + 1, hm => simpa using IHall m'' (by simpa using hm)

/-- The `max_by` index of `src/lib.rs`'s `from_prediction`: an in-range
index whose value dominates the row, with every *later* element strictly
smaller — i.e. the highest index attaining the maximum. -/
theorem libMaxIdx_spec (l : List ℚ) (hl : l ≠ []) :
    ∃ i, libMaxIdx l = some i ∧ i < l.length ∧
      (∀ j < l.length, l.getD j 0 ≤ l.getD i 0) ∧
      ∀ j, i < j → j < l.length → l.getD j 0 < l.getD i 0 := by
  match l with
  | [] => exact absurd rfl hl
  | v :: tl =>
    obtain ⟨h1, hseed, hall⟩ := maxByGo_spec tl 1 0 v
    have hidx : libMaxIdx (v :: tl) = some (maxByGo tl 1 0 v).1 := rfl
    rcases h1 with ⟨heq, hallv⟩ | ⟨m, hm, heq, hle, hafter⟩
    · refine ⟨0, by rw [hidx, heq], by simp, ?_, ?_⟩
      · intro j hj
        match j, hj with
        | 0, _ => simp
        | m'' + 1, hj =>
          simpa using (hallv m'' (by simpa using hj)).le
      · intro j h1 h2
        match j, h1, h2 with
        | m'' + 1, h1, h2 => simpa using hallv m'' (by simpa using h2)
    · have hvm : (v :: tl).getD (m + 1) 0 = (maxByGo tl 1 0 v).2 := by
        rw [heq]
        simp
      refine ⟨m + 1, ?_, by simpa using hm, ?_, ?_⟩
      · rw [hidx, heq]
        simp
        omega
      · intro j hj
        rw [hvm]
        match j, hj with
        | 0, _ => simpa using hseed
        | m'' + 1, hj => simpa using hall m'' (by simpa using hj)
      · intro j h1 h2
        rw [hvm]
        match j, h1, h2 with
        | m'' + 1, h1, h2 => simpa using hafter m'' (by omega) (by simpa using h2)

/-- Claim C4, amended: The two prediction consumers do *not* break ties the
same way.  The tensor arg-max path (`Network::predict`, `src/ml.rs`)
returns the lowest index attaining the maximal logit; the score-array
consumer (`FileType::from_prediction` of `src/lib.rs`, built on Rust's
`max_by`) returns the *highest* such index.  The two agree whenever the
maximum is attained at a unique index. -/
theorem c4_amended (l : List ℚ) (hl : l ≠ []) :
    (argmaxFirst l < l.length ∧
      (∀ j < l.length, l.getD j 0 ≤ l.getD (argmaxFirst l) 0) ∧
      ∀ j < argmaxFirst l, l.getD j 0 < l.getD (argmaxFirst l) 0) ∧
    (∃ i, libMaxIdx l = some i ∧ i < l.length ∧
      (∀ j < l.length, l.getD j 0 ≤ l.getD i 0) ∧
      ∀ j, i < j → j < l.length → l.getD j 0 < l.getD i 0) ∧
    (∀ i, libMaxIdx l = some i →
      (∀ j < l.length, j ≠ argmaxFirst l → l.getD j 0 < l.getD (argmaxFirst l) 0) →
      i = argmaxFirst l) := by
  refine ⟨argmaxFirst_spec l hl, libMaxIdx_spec l hl, ?_⟩
  intro i hi huniq
  obtain ⟨i', hi', hlen, hdom, -⟩ := libMaxIdx_spec l hl
  rw [hi] at hi'
  obtain rfl : i = i' := by
    exact Option.some_injective _ hi'
  by_contra hne
  have h1 : l.getD i 0 < l.getD (argmaxFirst l) 0 := huniq i hlen hne
  have h2 : l.getD (argmaxFirst l) 0 ≤ l.getD i 0 :=
    hdom (argmaxFirst l) (argmaxFirst_spec l hl).1
  exact absurd (lt_of_le_of_lt h2 h1) (lt_irrefl _)

/-- Counterexample to **C4** as stated: on the tied score row
`[1, 1, 0, 0, 0]` the stable arg-max (prediction-index path) selects
index 0, but the score-array consumer `FileType::from_prediction` of
`src/lib.rs` selects the *last* tied maximum, index 1, and answers
`Binary` instead of `Text` — the two paths are not identical and the
score-array path does not return the lowest tied class index. -/
theorem c4_counterexample :
    argmaxFirst [(1 : ℚ), 1, 0, 0, 0] = 0 ∧
      libMaxIdx [(1 : ℚ), 1, 0, 0, 0] = some 1 ∧
      LibFileType.from_prediction [(1 : ℚ), 1, 0, 0, 0] = some LibFileType.Binary ∧
      LibFileType.from_prediction [(1 : ℚ), 1, 0, 0, 0] ≠ some LibFileType.Text := by
  refine ⟨?_, ?_, ?_, ?_⟩ <;> decide

/-- Witness for C4 (amended) on the concrete row `[0, 3, 1, 1, 3]`
(maximum 3 attained at indices 1 and 4). -/
theorem c4_amended_witness :
    ([(0 : ℚ), 3, 1, 1, 3] ≠ ([] : List ℚ)) ∧
      ((argmaxFirst [(0 : ℚ), 3, 1, 1, 3] < ([(0 : ℚ), 3, 1, 1, 3] : List ℚ).length ∧
        (∀ j < ([(0 : ℚ), 3, 1, 1, 3] : List ℚ).length,
          ([(0 : ℚ), 3, 1, 1, 3] : List ℚ).getD j 0
            ≤ ([(0 : ℚ), 3, 1, 1, 3] : List ℚ).getD (argmaxFirst [(0 : ℚ), 3, 1, 1, 3]) 0) ∧
        ∀ j < argmaxFirst [(0 : ℚ), 3, 1, 1, 3],
          ([(0 : ℚ), 3, 1, 1, 3] : List ℚ).getD j 0
            < ([(0 : ℚ), 3, 1, 1, 3] : List ℚ).getD (argmaxFirst [(0 : ℚ), 3, 1, 1, 3]) 0) ∧
      (∃ i, libMaxIdx [(0 : ℚ), 3, 1, 1, 3] = some i ∧
        i < ([(0 : ℚ), 3, 1, 1, 3] : List ℚ).length ∧
        (∀ j < ([(0 : ℚ), 3, 1, 1, 3] : List ℚ).length,
          ([(0 : ℚ), 3, 1, 1, 3] : List ℚ).getD j 0
            ≤ ([(0 : ℚ), 3, 1, 1, 3] : List ℚ).getD i 0) ∧
        ∀ j, i < j → j < ([(0 : ℚ), 3, 1, 1, 3] : List ℚ).length →
          ([(0 : ℚ), 3, 1, 1, 3] : List ℚ).getD j 0
            < ([(0 : ℚ), 3, 1, 1, 3] : List ℚ).getD i 0) ∧
      (∀ i, libMaxIdx [(0 : ℚ), 3, 1, 1, 3] = some i →
        (∀ j < ([(0 : ℚ), 3, 1, 1, 3] : List ℚ).length,
          j ≠ argmaxFirst [(0 : ℚ), 3, 1, 1, 3] →
          ([(0 : ℚ), 3, 1, 1, 3] : List ℚ).getD j 0
            < ([(0 : ℚ), 3, 1, 1, 3] : List ℚ).getD (argmaxFirst [(0 : ℚ), 3, 1, 1, 3]) 0) →
        i = argmaxFirst [(0 : ℚ), 3, 1, 1, 3])) :=
  ⟨by decide, c4_amended [(0 : ℚ), 3, 1, 1, 3] (by decide)⟩

/-- Claim C1, the code bug: `Network::new` wires the second linear layer with
`N_OUTPUT + 1 = 6` outputs rather than `num_classes = N_OUTPUT = 5`:
every forward pass yields 6 logits per sample, and the checkpoint that
`VarMap::save` persists holds a `6×512` second weight matrix and a
6-element second bias — contradicting the repository's own `Output:
`(5,)`` documentation and `FileType::from_prediction`, which only
understands indices `0..=4`. -/
theorem c1_second_layer_has_six_outputs :
    N_OUTPUT = 5 ∧
      (∀ (net : Network) (x : Fin N_INPUT → ℚ), (net.logits x).length = 6) ∧
      checkpointShapes = [("ln1.weight", [512, 65536]), ("ln1.bias", [512]),
        ("ln2.weight", [6, 512]), ("ln2.bias", [6])] ∧
      (6 : ℕ) ≠ 5 := by
  refine ⟨rfl, ?_, rfl, by decide⟩
  intro net x
  rw [Network.logits, List.length_map, List.length_finRange]
  rfl

/-- A concrete parameter assignment: all weights and biases zero except
the second-layer bias of the sixth output, which is `1`. -/
def spikeNet : Network :=
  { ln1 := { weight := fun _ _ => 0, bias := fun _ => 0 }
    ln2 := { weight := fun _ _ => 0, bias := fun j => if j.val = 5 then 1 else 0 } }

theorem spikeNet_logits : spikeNet.logits (fun _ => 0) = [0, 0, 0, 0, 0, 1] := by
  have hfwd : ∀ j : Fin (N_OUTPUT + 1),
      spikeNet.forward (fun _ => 0) j = if j.val = 5 then 1 else 0 := by
    intro j
    simp [Network.forward, Linear.forward, spikeNet, relu]
  have hfin : List.finRange (N_OUTPUT + 1) = [0, 1, 2, 3, 4, 5] := by decide
  rw [Network.logits, hfin]
  simp only [List.map_cons, List.map_nil, hfwd]
  decide

/-- Claim C10: There are classifier parameters and an input (the empty
file: its exported feature vector is all-zero, third conjunct) for which
`Network::predict` returns the winning index 5, which
`FileType::from_prediction` maps to `None`: the public inference
interface can produce a winning index outside the five-class
enumeration, yielding no file type at all. -/
theorem c10_prediction_can_escape_enumeration :
    Network.predict spikeNet (fun _ => 0) = 5 ∧
      FileType.from_prediction (Network.predict spikeNet (fun _ => 0)) = none ∧
      BinaryTable.exportVec lnTab BinaryTable.new = List.replicate 65536 (some (0 : ℚ)) := by
  have hp : Network.predict spikeNet (fun _ => 0) = 5 := by
    rw [Network.predict, spikeNet_logits]
    decide
  refine ⟨hp, by rw [hp]; rfl, ?_⟩
  exact BinaryTable.exportVec_of_dots_zero lnTab _ (fun _ _ => rfl)

/-! ## IEEE-754 `f32` rounding, and the dataset split (`src/ml.rs`) -/

/-- Round a rational to the nearest integer, ties to even. -/
def rne (x : ℚ) : ℤ :=
  if x - ⌊x⌋ < 1 / 2 then ⌊x⌋
  else if 1 / 2 < x - ⌊x⌋ then ⌊x⌋ + 1
  else if 2 ∣ ⌊x⌋ then ⌊x⌋ else ⌊x⌋ + 1

/-- The binary exponent of a positive rational: the unique `e` with
`2^e ≤ q < 2^(e+1)`, computed from the base-2 logarithms of numerator
and denominator. -/
def qexp (q : ℚ) : ℤ :=
  let e0 : ℤ := (q.num.natAbs.log2 : ℤ) - (q.den.log2 : ℤ)
  if q < 2 ^ e0 then e0 - 1 else e0

/-- IEEE-754 binary32 round-to-nearest-even of a nonnegative rational:
scale into the 24-bit significand range, round to an integer
significand, scale back.  Exponents are unbounded (no overflow or
subnormals: faithful in the magnitude range reached by the split
computation). -/
def f32round (q : ℚ) : ℚ :=
  if q ≤ 0 then 0 else (rne (q / 2 ^ (qexp q - 23)) : ℚ) * 2 ^ (qexp q - 23)

theorem rne_sub_floor_nonneg (x : ℚ) : 0 ≤ x - ⌊x⌋ :=
  sub_nonneg.2 (Int.floor_le x)

theorem rne_sub_floor_lt_one (x : ℚ) : x - ⌊x⌋ < 1 := by
  have := Int.lt_floor_add_one x
  linarith

theorem rne_floor_cases (x : ℚ) : rne x = ⌊x⌋ ∨ rne x = ⌊x⌋ + 1 := by
  unfold rne
  split_ifs <;> simp

theorem rne_ge_floor (x : ℚ) : ⌊x⌋ ≤ rne x := by
  rcases rne_floor_cases x with h | h <;> omega

theorem rne_err (x : ℚ) : |(rne x : ℚ) - x| ≤ 1 / 2 := by
  have h0 := rne_sub_floor_nonneg x
  have h1 := rne_sub_floor_lt_one x
  unfold rne
  split_ifs with ha hb hc <;>
    · rw [abs_le]
      push_cast
      constructor <;> linarith

theorem rne_int (n : ℤ) : rne (n : ℚ) = n := by
  unfold rne
  rw [Int.floor_intCast]
  norm_num

theorem rne_eq_down (x : ℚ) (f : ℤ) (h1 : (f : ℚ) ≤ x) (h2 : x - f < 1 / 2) :
    rne x = f := by
  have hf : ⌊x⌋ = f := Int.floor_eq_iff.2 ⟨h1, by linarith⟩
  unfold rne
  rw [hf, if_pos h2]

theorem rne_eq_up (x : ℚ) (f : ℤ) (h1 : (f : ℚ) ≤ x) (h2 : 1 / 2 < x - f)
    (h3 : x < f + 1) : rne x = f + 1 := by
  have hf : ⌊x⌋ = f := Int.floor_eq_iff.2 ⟨h1, by linarith⟩
  unfold rne
  rw [hf, if_neg (by linarith), if_pos h2]

theorem qexp_spec (q : ℚ) (hq : 0 < q) :
    (2 : ℚ) ^ qexp q ≤ q ∧ q < 2 ^ (qexp q + 1) := by
  have hnum : 0 < q.num := Rat.num_pos.2 hq
  have hden : 0 < q.den := q.pos
  set a := q.num.natAbs with ha
  have hane : a ≠ 0 := by
    rw [ha]
    exact Int.natAbs_ne_zero.2 (ne_of_gt hnum)
  have haq : (a : ℤ) = q.num := Int.natAbs_of_nonneg hnum.le
  have haqQ : ((q.num : ℚ)) = (a : ℚ) := by exact_mod_cast haq.symm
  have hq_eq : q = (a : ℚ) / (q.den : ℚ) := by
    conv_lhs => rw [← Rat.num_div_den q]
    rw [haqQ]
  have hdpos : (0 : ℚ) < (q.den : ℚ) := by exact_mod_cast hden
  have hla : (2 : ℚ) ^ (a.log2 : ℕ) ≤ (a : ℚ) := by exact_mod_cast Nat.log2_self_le hane
  have hla2 : (a : ℚ) < 2 ^ (a.log2 + 1 : ℕ) := by exact_mod_cast Nat.lt_log2_self (n := a)
  have hlb : (2 : ℚ) ^ (q.den.log2 : ℕ) ≤ (q.den : ℚ) := by
    exact_mod_cast Nat.log2_self_le (Nat.pos_iff_ne_zero.1 hden)
  have hlb2 : (q.den : ℚ) < 2 ^ (q.den.log2 + 1 : ℕ) := by
    exact_mod_cast Nat.lt_log2_self (n := q.den)
  set e0 : ℤ := (a.log2 : ℤ) - (q.den.log2 : ℤ) with he0
  have hsplit1 : (2 : ℚ) ^ (e0 - 1) * 2 ^ ((q.den.log2 + 1 : ℕ) : ℤ) = 2 ^ (a.log2 : ℤ) := by
    rw [← zpow_add₀ (two_ne_zero : (2 : ℚ) ≠ 0)]
    congr 1
    omega
  have hsplit2 : ((2 : ℚ) ^ (e0 + 1)) * 2 ^ ((q.den.log2 : ℕ) : ℤ) = 2 ^ ((a.log2 + 1 : ℕ) : ℤ) := by
    rw [← zpow_add₀ (two_ne_zero : (2 : ℚ) ≠ 0)]
    congr 1
    omega
  have hlow : (2 : ℚ) ^ (e0 - 1) < q := by
    rw [hq_eq, lt_div_iff₀ hdpos]
    calc (2 : ℚ) ^ (e0 - 1) * (q.den : ℚ)
        < 2 ^ (e0 - 1) * 2 ^ (q.den.log2 + 1 : ℕ) := by
          apply mul_lt_mul_of_pos_left hlb2
          positivity
      _ = 2 ^ (a.log2 : ℤ) := by rw [← hsplit1, zpow_natCast]
      _ = (2 : ℚ) ^ (a.log2 : ℕ) := by rw [zpow_natCast]
      _ ≤ (a : ℚ) := hla
  have hhigh : q < (2 : ℚ) ^ (e0 + 1) := by
    rw [hq_eq, div_lt_iff₀ hdpos]
    calc (a : ℚ) < 2 ^ (a.log2 + 1 : ℕ) := hla2
      _ = 2 ^ ((a.log2 + 1 : ℕ) : ℤ) := by rw [zpow_natCast]
      _ = 2 ^ (e0 + 1) * 2 ^ ((q.den.log2 : ℕ) : ℤ) := hsplit2.symm
      _ ≤ 2 ^ (e0 + 1) * (q.den : ℚ) := by
          apply mul_le_mul_of_nonneg_left _ (by positivity)
          rw [zpow_natCast]
          exact hlb
  show ((2 : ℚ) ^ (if q < 2 ^ e0 then e0 - 1 else e0) ≤ q ∧
    q < 2 ^ ((if q < 2 ^ e0 then e0 - 1 else e0) + 1))
  by_cases hc : q < 2 ^ e0
  · rw [if_pos hc]
    exact ⟨hlow.le, by rw [sub_add_cancel]; exact hc⟩
  · rw [if_neg hc]
    exact ⟨not_lt.1 hc, hhigh⟩

theorem qexp_eq (q : ℚ) (e : ℤ) (hq : 0 < q) (h1 : (2 : ℚ) ^ e ≤ q)
    (h2 : q < 2 ^ (e + 1)) : qexp q = e := by
  obtain ⟨hs1, hs2⟩ := qexp_spec q hq
  by_contra hne
  rcases lt_or_gt_of_ne hne with h | h
  · have : (2 : ℚ) ^ (qexp q + 1) ≤ 2 ^ e := zpow_le_zpow_right₀ one_le_two (by omega)
    linarith
  · have : (2 : ℚ) ^ (e + 1) ≤ 2 ^ qexp q := zpow_le_zpow_right₀ one_le_two (by omega)
    linarith

theorem f32round_of_pos (q : ℚ) (hq : 0 < q) :
    f32round q = (rne (q / 2 ^ (qexp q - 23)) : ℚ) * 2 ^ (qexp q - 23) := by
  rw [f32round, if_neg (not_le.2 hq)]

theorem f32round_err (q : ℚ) (hq : 0 < q) : |f32round q - q| ≤ 2 ^ (qexp q - 24) := by
  rw [f32round_of_pos q hq]
  set s := qexp q - 23 with hs
  have h2 : (0 : ℚ) < 2 ^ s := by positivity
  have herr := rne_err (q / 2 ^ s)
  have key : (rne (q / 2 ^ s) : ℚ) * 2 ^ s - q
      = ((rne (q / 2 ^ s) : ℚ) - q / 2 ^ s) * 2 ^ s := by
    field_simp
  rw [key, abs_mul, abs_of_pos h2]
  calc |(rne (q / 2 ^ s) : ℚ) - q / 2 ^ s| * 2 ^ s ≤ (1 / 2) * 2 ^ s :=
        mul_le_mul_of_nonneg_right herr h2.le
    _ = 2 ^ (qexp q - 24) := by
        rw [show qexp q - 24 = -1 + s by omega,
          zpow_add₀ (two_ne_zero : (2 : ℚ) ≠ 0)]
        norm_num

theorem f32round_relerr (q : ℚ) (hq : 0 < q) :
    |f32round q - q| ≤ q * (1 / 16777216) := by
  calc |f32round q - q| ≤ 2 ^ (qexp q - 24) := f32round_err q hq
    _ = 2 ^ qexp q * 2 ^ (-24 : ℤ) := by
        rw [sub_eq_add_neg, zpow_add₀ (two_ne_zero : (2 : ℚ) ≠ 0)]
    _ ≤ q * 2 ^ (-24 : ℤ) :=
        mul_le_mul_of_nonneg_right (qexp_spec q hq).1 (by positivity)
    _ = q * (1 / 16777216) := by norm_num

theorem qexp_le_of_lt (q : ℚ) (e : ℤ) (hq : 0 < q) (h : q < 2 ^ (e + 1)) :
    qexp q ≤ e := by
  by_contra hc
  push_neg at hc
  have h1 : (2 : ℚ) ^ (e + 1) ≤ 2 ^ qexp q := zpow_le_zpow_right₀ one_le_two (by omega)
  have h2 := (qexp_spec q hq).1
  linarith

theorem f32round_nat (N : ℕ) (h1 : 1 ≤ N) (h2 : N < 2 ^ 24) :
    f32round (N : ℚ) = N := by
  have hq : (0 : ℚ) < N := by exact_mod_cast h1
  have h2Q : (N : ℚ) < 2 ^ ((23 : ℤ) + 1) := by
    have : (N : ℚ) < 2 ^ (24 : ℕ) := by exact_mod_cast h2
    rw [show ((23 : ℤ) + 1) = ((24 : ℕ) : ℤ) by norm_num, zpow_natCast]
    exact this
  have hqe : qexp (N : ℚ) ≤ 23 := qexp_le_of_lt _ 23 hq h2Q
  set s := qexp (N : ℚ) - 23 with hs
  set n := (23 - qexp (N : ℚ)).toNat with hn
  have hnc : (n : ℤ) = 23 - qexp (N : ℚ) := Int.toNat_of_nonneg (by omega)
  have h2s : (0 : ℚ) < 2 ^ s := by positivity
  have hint : ((N : ℚ)) / 2 ^ s = ((N * 2 ^ n : ℤ) : ℚ) := by
    push_cast
    rw [div_eq_mul_inv, ← zpow_neg (2 : ℚ) s, ← zpow_natCast (2 : ℚ) n,
      show (-s) = (n : ℤ) by omega]
  rw [f32round_of_pos _ hq, ← hs, hint, rne_int]
  rw [← hint]
  field_simp

theorem f32round_ge_int (q : ℚ) (m : ℕ) (hq : 0 < q) (hqe : qexp q ≤ 23)
    (hm : (m : ℚ) ≤ q) : (m : ℚ) ≤ f32round q := by
  set s := qexp q - 23 with hs
  set n := (23 - qexp q).toNat with hn
  have hnc : (n : ℤ) = 23 - qexp q := Int.toNat_of_nonneg (by omega)
  have h2s : (0 : ℚ) < 2 ^ s := by positivity
  have hint : ((m : ℚ)) / 2 ^ s = ((m * 2 ^ n : ℤ) : ℚ) := by
    push_cast
    rw [div_eq_mul_inv, ← zpow_neg (2 : ℚ) s, ← zpow_natCast (2 : ℚ) n,
      show (-s) = (n : ℤ) by omega]
  have hflr : ((m * 2 ^ n : ℤ)) ≤ ⌊q / 2 ^ s⌋ := by
    rw [Int.le_floor, ← hint]
    gcongr
  have hrne : ((m * 2 ^ n : ℤ)) ≤ rne (q / 2 ^ s) := le_trans hflr (rne_ge_floor _)
  rw [f32round_of_pos _ hq, ← hs]
  have hmul : ((m * 2 ^ n : ℤ) : ℚ) * 2 ^ s ≤ (rne (q / 2 ^ s) : ℚ) * 2 ^ s := by
    apply mul_le_mul_of_nonneg_right _ h2s.le
    exact_mod_cast hrne
  calc (m : ℚ) = ((m * 2 ^ n : ℤ) : ℚ) * 2 ^ s := by
        rw [← hint]
        field_simp
    _ ≤ _ := hmul

/-- The `f32` value of the literal `0.8` in `src/ml.rs`. -/
def c08 : ℚ := f32round (4 / 5)

theorem c08_eq : c08 = 13421773 / 16777216 := by
  have hq : (0 : ℚ) < 4 / 5 := by norm_num
  have he : qexp (4 / 5 : ℚ) = -1 := by
    apply qexp_eq _ _ hq
    · norm_num
    · norm_num
  rw [c08, f32round_of_pos _ hq, he]
  have harg : ((4 / 5 : ℚ) / 2 ^ (-1 - 23 : ℤ)) = 67108864 / 5 := by norm_num
  have hr : rne ((4 / 5 : ℚ) / 2 ^ (-1 - 23 : ℤ)) = 13421773 := by
    rw [harg, show (13421773 : ℤ) = 13421772 + 1 by norm_num]
    apply rne_eq_up <;> norm_num
  rw [hr]
  norm_num

/-- Sizing of the dataset split in `Dataset::collect` (`src/ml.rs`) and
`Dataset::load` (`src/lib.rs`): `(len as f32 * 0.8) as usize`, with exact
`f32` semantics (`len as f32` rounds the count, the product rounds again,
`as usize` truncates). -/
def trainLen (N : ℕ) : ℕ := (⌊f32round (f32round N * c08)⌋).toNat

/-- The split of `Dataset::collect`: `test_len = len - train_len`, and the
`"Dataset to small"` guard fires exactly when a partition is empty.  The
in-place shuffle permutes the corpus, so partition sizes depend only on
the corpus size `N`. -/
def datasetSplit (N : ℕ) : Except String (ℕ × ℕ) :=
  let t := trainLen N
  let s := N - t
  if t = 0 ∨ s = 0 then Except.error "Dataset to small" else Except.ok (t, s)

theorem f32round_zero : f32round 0 = 0 := by
  rw [f32round, if_pos le_rfl]

theorem trainLen_zero : trainLen 0 = 0 := by
  rw [trainLen]
  norm_num [f32round_zero]

theorem f32round_eq_of (q : ℚ) (e r : ℤ) (hq : 0 < q)
    (h1 : (2 : ℚ) ^ e ≤ q) (h2 : q < 2 ^ (e + 1))
    (hr : rne (q / 2 ^ (e - 23)) = r) :
    f32round q = (r : ℚ) * 2 ^ (e - 23) := by
  rw [f32round_of_pos _ hq, qexp_eq q e hq h1 h2, hr]

theorem trainLen_one : trainLen 1 = 0 := by
  have hf1 : f32round ((1 : ℕ) : ℚ) = ((1 : ℕ) : ℚ) := f32round_nat 1 le_rfl (by norm_num)
  have hc : f32round ((13421773 : ℚ) / 16777216) = (13421773 : ℚ) / 16777216 := by
    have hr : rne (((13421773 : ℚ) / 16777216) / 2 ^ ((-1 : ℤ) - 23)) = 13421773 := by
      rw [show (((13421773 : ℚ) / 16777216) / 2 ^ ((-1 : ℤ) - 23)) = ((13421773 : ℤ) : ℚ)
        by norm_num]
      exact rne_int _
    have := f32round_eq_of ((13421773 : ℚ) / 16777216) (-1) 13421773
      (by norm_num) (by norm_num) (by norm_num) hr
    rw [this]
    norm_num
  rw [trainLen, hf1]
  norm_num [c08_eq, hc]

theorem trainLen_boundary : trainLen 5242880 = 4194304 := by
  have hf : f32round ((5242880 : ℕ) : ℚ) = ((5242880 : ℕ) : ℚ) :=
    f32round_nat 5242880 (by norm_num) (by norm_num)
  have hq2 : ((5242880 : ℕ) : ℚ) * c08 = 67108865 / 16 := by
    rw [c08_eq]
    norm_num
  have hr : rne (((67108865 : ℚ) / 16) / 2 ^ ((22 : ℤ) - 23)) = 8388608 := by
    rw [show (((67108865 : ℚ) / 16) / 2 ^ ((22 : ℤ) - 23)) = 67108865 / 8 by norm_num]
    apply rne_eq_down <;> norm_num
  have hG := f32round_eq_of ((67108865 : ℚ) / 16) 22 8388608
    (by norm_num) (by norm_num) (by norm_num) hr
  rw [trainLen, hf, hq2, hG,
    show ((8388608 : ℤ) : ℚ) * 2 ^ ((22 : ℤ) - 23) = ((4194304 : ℤ) : ℚ) by norm_num,
    Int.floor_intCast]
  rfl

/-- Counterexample to **C5** as stated: for a corpus of `N = 5242881`
recognized samples, the `f32` product `5242881 as f32 * 0.8f32` rounds
*up* across the integer `4194305` (exact value `4194304.8625…`, and the
`f32` spacing at that magnitude is `1/2`), so the training partition gets
`4194305` samples while `floor(0.8 * N) = 4194304`. -/
theorem c5_counterexample :
    trainLen 5242881 = 4194305 ∧ 4 * 5242881 / 5 = 4194304 ∧
      trainLen 5242881 ≠ 4 * 5242881 / 5 := by
  have hf : f32round ((5242881 : ℕ) : ℚ) = ((5242881 : ℕ) : ℚ) :=
    f32round_nat 5242881 (by norm_num) (by norm_num)
  have hq2 : ((5242881 : ℕ) : ℚ) * c08 = 70368758648013 / 16777216 := by
    rw [c08_eq]
    norm_num
  have hr : rne (((70368758648013 : ℚ) / 16777216) / 2 ^ ((22 : ℤ) - 23)) = 8388610 := by
    rw [show (((70368758648013 : ℚ) / 16777216) / 2 ^ ((22 : ℤ) - 23))
      = 70368758648013 / 8388608 by norm_num,
      show (8388610 : ℤ) = 8388609 + 1 by norm_num]
    apply rne_eq_up <;> norm_num
  have hG := f32round_eq_of ((70368758648013 : ℚ) / 16777216) 22 8388610
    (by norm_num) (by norm_num) (by norm_num) hr
  have ht : trainLen 5242881 = 4194305 := by
    rw [trainLen, hf, hq2, hG,
      show ((8388610 : ℤ) : ℚ) * 2 ^ ((22 : ℤ) - 23) = ((4194305 : ℤ) : ℚ) by norm_num,
      Int.floor_intCast]
    rfl
  refine ⟨ht, by norm_num, ?_⟩
  rw [ht]
  norm_num

theorem c08_pos : 0 < c08 := by
  rw [c08_eq]
  norm_num

theorem trainLen_pos (N : ℕ) (h : 2 ≤ N) : 1 ≤ trainLen N := by
  have hNq : (0 : ℚ) < N := by exact_mod_cast lt_of_lt_of_le two_pos h
  have hN2 : (2 : ℚ) ≤ (N : ℚ) := by exact_mod_cast h
  set F := f32round (N : ℚ) with hF
  have hFerr := abs_le.1 (f32round_relerr (N : ℚ) hNq)
  have hFlow : (N : ℚ) * (1 - 1 / 16777216) ≤ F := by
    have := hFerr.1
    nlinarith
  have hFpos : (0 : ℚ) < F :=
    lt_of_lt_of_le (mul_pos hNq (by norm_num)) hFlow
  have hq2pos : (0 : ℚ) < F * c08 := mul_pos hFpos c08_pos
  set G := f32round (F * c08) with hG
  have hGerr := abs_le.1 (f32round_relerr (F * c08) hq2pos)
  have hGlow : (F * c08) * (1 - 1 / 16777216) ≤ G := by
    have := hGerr.1
    nlinarith
  have key : (N : ℚ) * ((1 - 1 / 16777216) * c08 * (1 - 1 / 16777216)) ≤ G := by
    calc (N : ℚ) * ((1 - 1 / 16777216) * c08 * (1 - 1 / 16777216))
        = ((N : ℚ) * (1 - 1 / 16777216) * c08) * (1 - 1 / 16777216) := by ring
      _ ≤ (F * c08) * (1 - 1 / 16777216) :=
          mul_le_mul_of_nonneg_right
            (mul_le_mul_of_nonneg_right hFlow c08_pos.le) (by norm_num)
      _ ≤ G := hGlow
  have hfinal : (1 : ℚ) ≤ G := by
    have h24 : (2 : ℚ) * ((1 - 1 / 16777216) * c08 * (1 - 1 / 16777216))
        ≤ (N : ℚ) * ((1 - 1 / 16777216) * c08 * (1 - 1 / 16777216)) :=
      mul_le_mul_of_nonneg_right hN2 (by rw [c08_eq]; norm_num)
    have h25 : (1 : ℚ) ≤ 2 * ((1 - 1 / 16777216) * c08 * (1 - 1 / 16777216)) := by
      rw [c08_eq]
      norm_num
    linarith
  have hfl : 1 ≤ ⌊G⌋ := Int.le_floor.2 (by exact_mod_cast hfinal)
  rw [trainLen, ← hF, ← hG]
  omega

theorem trainLen_lt (N : ℕ) (h : 1 ≤ N) : trainLen N < N := by
  have hNq : (0 : ℚ) < N := by exact_mod_cast h
  set F := f32round (N : ℚ) with hF
  have hFerr := abs_le.1 (f32round_relerr (N : ℚ) hNq)
  have hFhigh : F ≤ (N : ℚ) * (1 + 1 / 16777216) := by
    have := hFerr.2
    nlinarith
  have hFlow : (N : ℚ) * (1 - 1 / 16777216) ≤ F := by
    have := hFerr.1
    nlinarith
  have hFpos : (0 : ℚ) < F :=
    lt_of_lt_of_le (mul_pos hNq (by norm_num)) hFlow
  have hq2pos : (0 : ℚ) < F * c08 := mul_pos hFpos c08_pos
  set G := f32round (F * c08) with hG
  have hGerr := abs_le.1 (f32round_relerr (F * c08) hq2pos)
  have hGhigh : G ≤ (F * c08) * (1 + 1 / 16777216) := by
    have := hGerr.2
    nlinarith
  have key : G ≤ (N : ℚ) * ((1 + 1 / 16777216) * c08 * (1 + 1 / 16777216)) := by
    calc G ≤ (F * c08) * (1 + 1 / 16777216) := hGhigh
      _ ≤ ((N : ℚ) * (1 + 1 / 16777216) * c08) * (1 + 1 / 16777216) :=
          mul_le_mul_of_nonneg_right
            (mul_le_mul_of_nonneg_right hFhigh c08_pos.le) (by norm_num)
      _ = (N : ℚ) * ((1 + 1 / 16777216) * c08 * (1 + 1 / 16777216)) := by ring
  have hup : G < (N : ℚ) := by
    have hco : ((1 + 1 / 16777216 : ℚ) * c08 * (1 + 1 / 16777216)) < 1 := by
      rw [c08_eq]
      norm_num
    have := mul_lt_mul_of_pos_left hco hNq
    rw [mul_one] at this
    linarith
  have hfl : ⌊G⌋ < (N : ℤ) := Int.floor_lt.2 (by exact_mod_cast hup)
  rw [trainLen, ← hF, ← hG]
  omega

theorem datasetSplit_err_iff (N : ℕ) :
    datasetSplit N = Except.error "Dataset to small" ↔ N < 2 := by
  constructor
  · intro h
    by_contra hn
    push_neg at hn
    have h1 := trainLen_pos N hn
    have h2 := trainLen_lt N (by omega)
    simp only [datasetSplit] at h
    split_ifs at h with hc
    · omega
  · intro h
    interval_cases N
    · simp [datasetSplit, trainLen_zero]
    · simp [datasetSplit, trainLen_one]

theorem trainLen_eq_floor (N : ℕ) (hN : N ≤ 5242880) : trainLen N = 4 * N / 5 := by
  rcases Nat.eq_zero_or_pos N with rfl | hpos
  · rw [trainLen_zero]
  by_cases hb : N = 5242880
  · subst hb
    rw [trainLen_boundary]
  have hN' : N ≤ 5242879 := by omega
  have hNq : (0 : ℚ) < N := by exact_mod_cast hpos
  have hNle : (N : ℚ) ≤ 5242879 := by exact_mod_cast hN'
  have hf : f32round ((N : ℕ) : ℚ) = ((N : ℕ) : ℚ) := f32round_nat N hpos (by omega)
  set m := 4 * N / 5 with hm
  set r := 4 * N % 5 with hr
  have hdm : 5 * m + r = 4 * N := Nat.div_add_mod (4 * N) 5
  have hrlt : r < 5 := Nat.mod_lt _ (by norm_num)
  have hcast : (4 : ℚ) * N = 5 * m + r := by exact_mod_cast hdm.symm
  set q2 : ℚ := (N : ℚ) * c08 with hq2def
  have hq2pos : 0 < q2 := by
    rw [hq2def]
    exact mul_pos hNq c08_pos
  have hq2eq : q2 = (m : ℚ) + r / 5 + N / 83886080 := by
    rw [hq2def, c08_eq]
    linear_combination ((1 : ℚ) / 5) * hcast
  have hq2lt : q2 < 2 ^ ((21 : ℤ) + 1) := by
    rw [show ((2 : ℚ) ^ ((21 : ℤ) + 1)) = 4194304 by norm_num, hq2def, c08_eq]
    calc (N : ℚ) * (13421773 / 16777216) ≤ 5242879 * (13421773 / 16777216) :=
          mul_le_mul_of_nonneg_right hNle (by norm_num)
      _ < 4194304 := by norm_num
  have hqe : qexp q2 ≤ 21 := qexp_le_of_lt q2 21 hq2pos hq2lt
  have herr := abs_le.1 (f32round_err q2 hq2pos)
  have hulp : (2 : ℚ) ^ (qexp q2 - 24) ≤ 1 / 8 := by
    calc (2 : ℚ) ^ (qexp q2 - 24) ≤ 2 ^ (-3 : ℤ) :=
          zpow_le_zpow_right₀ one_le_two (by omega)
      _ = 1 / 8 := by norm_num
  set G := f32round q2 with hG
  have hrQ : (r : ℚ) ≤ 4 := by exact_mod_cast Nat.lt_succ_iff.1 hrlt
  have hup : G < (m : ℚ) + 1 := by
    have h1 : G ≤ q2 + 2 ^ (qexp q2 - 24) := by linarith [herr.2]
    have h2 : (N : ℚ) / 83886080 ≤ 5242879 / 83886080 := by gcongr
    have h3 : (5242879 : ℚ) / 83886080 < 1 / 16 := by norm_num
    linarith [hq2eq]
  have hlow : (m : ℚ) ≤ G := by
    apply f32round_ge_int q2 m hq2pos (by omega)
    have ha : (0 : ℚ) ≤ (r : ℚ) / 5 := by positivity
    have hb' : (0 : ℚ) ≤ (N : ℚ) / 83886080 := by positivity
    linarith [hq2eq]
  have hfl : ⌊G⌋ = (m : ℤ) := by
    rw [Int.floor_eq_iff]
    constructor
    · exact_mod_cast hlow
    · push_cast
      exact hup
  rw [trainLen, hf, ← hq2def, ← hG, hfl]
  simp

/-- Claim C5, amended: For every corpus of `N` recognized samples:
the two partitions sum to `N` and the training partition has `trainLen N`
samples; construction fails with `"Dataset to small"` exactly when a
partition would be empty, which happens exactly for `N < 2`; and the
training partition size equals `floor(0.8*N) = 4*N/5` for every
`N ≤ 5242880` (the amendment: beyond that bound `f32` rounding of
`len as f32 * 0.8` can differ from the exact `floor(0.8*N)`, first at
`N = 5242881`). -/
theorem c5_amended :
    (∀ N t s, datasetSplit N = Except.ok (t, s) → t + s = N ∧ t = trainLen N) ∧
      (∀ N, datasetSplit N = Except.error "Dataset to small" ↔ N < 2) ∧
      (∀ N, N ≤ 5242880 → trainLen N = 4 * N / 5) := by
  refine ⟨?_, datasetSplit_err_iff, trainLen_eq_floor⟩
  intro N t s h
  simp only [datasetSplit] at h
  split_ifs at h with hc
  push_neg at hc
  rw [Except.ok.injEq, Prod.mk.injEq] at h
  obtain ⟨rfl, rfl⟩ := h
  omega

/-- Witness for C5 (amended) at the concrete corpus sizes 10 and 1. -/
theorem c5_amended_witness :
    trainLen 10 = 8 ∧ datasetSplit 10 = Except.ok (8, 2) ∧
      (8 + 2 = 10 ∧ 8 = trainLen 10) ∧
      datasetSplit 1 = Except.error "Dataset to small" := by
  have ht : trainLen 10 = 8 := by
    have := c5_amended.2.2 10 (by norm_num)
    rw [this]
  have hds : datasetSplit 10 = Except.ok (8, 2) := by
    simp only [datasetSplit, ht]
    norm_num
  refine ⟨ht, hds, c5_amended.1 10 8 2 hds, (c5_amended.2.1 1).2 (by norm_num)⟩

/-! ## Trainer (`src/ml.rs`) -/

def EPOCHS : ℕ := 10

/-- The epoch loop of `train` (`src/ml.rs`), abstracted over the
per-epoch test-accuracy trace `acc` (`acc e` is the `final_accuracy`
value — `100 * test_accuracy` — computed in epoch `e` by the forward
passes and gradient step, an opaque numeric computation): `fuel` epochs
remain, `e` is the next epoch number, `fa` the running
`final_accuracy` (initially `0.0`).  The loop breaks as soon as the
accuracy is exactly `100.0`.  Returns the final accuracy and how many
epochs were executed. -/
def runLoop (acc : ℕ → ℚ) : ℕ → ℕ → ℚ → ℚ × ℕ
  | 0, _, fa => (fa, 0)
  | fuel + 1, e, _ =>
    if acc e = 100 then (acc e, 1)
    else ((runLoop acc fuel (e + 1) (acc e)).1, (runLoop acc fuel (e + 1) (acc e)).2 + 1)

/-- The observable outcome of one `train` call. -/
structure TrainOutcome where
  finalAccuracy : ℚ
  epochsRun : ℕ
  checkpointSaved : Bool
  result : Except String Unit

/-- Modelled from the spec: candle's `VarMap::load` (an external
dependency) fails when the file's tensor shapes disagree with the
declared ones — "loading into a classifier with mismatched declared
dimensions is a hard failure". -/
def varmapLoad (declared fileShapes : List (String × List ℕ)) : Except String Unit :=
  if fileShapes = declared then Except.ok () else Except.error "shape mismatch"

/-- Rust `Network::load` (`src/ml.rs`): construct the declared architecture,
then `varmap.load(path)?` — the `?` propagates the load error. -/
def networkLoad (fileShapes : List (String × List ℕ)) : Except String Unit :=
  varmapLoad checkpointShapes fileShapes

/-- Rust `train` (`src/ml.rs`): build the network, *discard* the result of the
checkpoint load (`_ = varmap.load(&path)`), run the epoch loop with early
stop at exactly 100%, unconditionally attempt the save
(`_ = varmap.save(&path)`), then accept iff the final accuracy is at
least the hard-coded threshold `95.0`. -/
def train (fileShapes : List (String × List ℕ)) (acc : ℕ → ℚ) : TrainOutcome :=
  let _loadResult := varmapLoad checkpointShapes fileShapes
  let p := runLoop acc EPOCHS 1 0
  { finalAccuracy := p.1
    epochsRun := p.2
    checkpointSaved := true
    result := if p.1 < 95 then Except.error "The model is not trained well enough."
      else Except.ok () }

theorem runLoop_succ (acc : ℕ → ℚ) (fuel e : ℕ) (fa : ℚ) :
    runLoop acc (fuel + 1) e fa =
      if acc e = 100 then (acc e, 1)
      else ((runLoop acc fuel (e + 1) (acc e)).1,
        (runLoop acc fuel (e + 1) (acc e)).2 + 1) := rfl

theorem train_result_eq (fileShapes : List (String × List ℕ)) (acc : ℕ → ℚ) :
    (train fileShapes acc).result =
      if (runLoop acc EPOCHS 1 0).1 < 95 then
        Except.error "The model is not trained well enough."
      else Except.ok () := rfl

theorem train_finalAccuracy_eq (fileShapes : List (String × List ℕ)) (acc : ℕ → ℚ) :
    (train fileShapes acc).finalAccuracy = (runLoop acc EPOCHS 1 0).1 := rfl

theorem train_epochsRun_eq (fileShapes : List (String × List ℕ)) (acc : ℕ → ℚ) :
    (train fileShapes acc).epochsRun = (runLoop acc EPOCHS 1 0).2 := rfl

theorem runLoop_char (acc : ℕ → ℚ) : ∀ (fuel e : ℕ) (fa : ℚ), 1 ≤ fuel →
    (runLoop acc fuel e fa).2 ≤ fuel ∧
      1 ≤ (runLoop acc fuel e fa).2 ∧
      (runLoop acc fuel e fa).1 = acc (e + (runLoop acc fuel e fa).2 - 1) ∧
      (∀ k, e ≤ k → k < e + (runLoop acc fuel e fa).2 - 1 → acc k ≠ 100) ∧
      ((runLoop acc fuel e fa).2 < fuel → (runLoop acc fuel e fa).1 = 100)
  | 0, _, _, hf => absurd hf (by norm_num)
  | 1, e, fa, _ => by
    rw [runLoop_succ]
    by_cases h : acc e = 100
    · rw [if_pos h]
      refine ⟨le_refl _, le_refl _, by norm_num, ?_, ?_⟩
      · intro k h1 h2
        simp at h2
        omega
      · intro h2
        simp at h2
    · rw [if_neg h]
      show ((runLoop acc 0 (e + 1) (acc e)).1, (runLoop acc 0 (e + 1) (acc e)).2 + 1).2 ≤ 1 ∧ _
      refine ⟨by simp [runLoop], by simp [runLoop], by simp [runLoop], ?_, ?_⟩
      · intro k h1 h2
        simp [runLoop] at h2
        omega
      · intro h2
        simp [runLoop] at h2
  | fuel + 2, e, fa, _ => by
    rw [runLoop_succ]
    by_cases h : acc e = 100
    · rw [if_pos h]
      refine ⟨by omega, le_refl _, by norm_num [h], ?_, fun _ => h⟩
      intro k h1 h2
      simp at h2
      omega
    · obtain ⟨ih1, ih2, ih3, ih4, ih5⟩ :=
        runLoop_char acc (fuel + 1) (e + 1) (acc e) (by omega)
      rw [if_neg h]
      set q := runLoop acc (fuel + 1) (e + 1) (acc e) with hq
      refine ⟨by simp; omega, by simp, ?_, ?_, ?_⟩
      · show q.1 = acc (e + (q.2 + 1) - 1)
        rw [ih3]
        congr 1
        omega
      · intro k h1 h2
        show acc k ≠ 100
        have h2' : k < e + (q.2 + 1) - 1 := h2
        rcases Nat.eq_or_lt_of_le h1 with rfl | hk
        · exact h
        · exact ih4 k (by omega) (by omega)
      · intro hlt
        have hlt' : (q.1, q.2 + 1).2 < fuel + 2 := hlt
        show q.1 = 100
        exact ih5 (by simp at hlt'; omega)

/-- Claim C6: `train` returns the `TrainingFailed` error
(`"The model is not trained well enough."`) iff the final test accuracy
is below the threshold `95.0` (the percentage `src/ml.rs` hard-codes —
the CLI default is the same 95.0); the final accuracy is the one
computed in the last executed epoch, the loop having ended either by
early-stop (accuracy exactly 100 before the epoch cap) or by epoch
exhaustion. -/
theorem c6_trainingFailed_iff_below_threshold
    (fileShapes : List (String × List ℕ)) (acc : ℕ → ℚ) :
    ((train fileShapes acc).result
        = Except.error "The model is not trained well enough."
      ↔ (train fileShapes acc).finalAccuracy < 95) ∧
      (train fileShapes acc).finalAccuracy = acc ((train fileShapes acc).epochsRun) ∧
      1 ≤ (train fileShapes acc).epochsRun ∧
      (train fileShapes acc).epochsRun ≤ EPOCHS ∧
      ((train fileShapes acc).epochsRun < EPOCHS →
        (train fileShapes acc).finalAccuracy = 100) := by
  obtain ⟨h1, h2, h3, h4, h5⟩ := runLoop_char acc EPOCHS 1 0 (by decide)
  rw [train_result_eq, train_finalAccuracy_eq, train_epochsRun_eq]
  refine ⟨?_, ?_, h2, h1, h5⟩
  · split_ifs with hc
    · simp [hc]
    · simp [hc]
  · rw [h3]
    congr 1
    omega

/-- Accuracy trace used in witnesses: 100% in epoch 3, 50% before. -/
def acc9 : ℕ → ℚ := fun e => if e = 3 then 100 else 50

/-- Witness for C6 at the concrete trace `acc9`. -/
theorem c6_trainingFailed_iff_below_threshold_witness :
    ((train checkpointShapes acc9).result
        = Except.error "The model is not trained well enough."
      ↔ (train checkpointShapes acc9).finalAccuracy < 95) ∧
      (train checkpointShapes acc9).finalAccuracy
        = acc9 ((train checkpointShapes acc9).epochsRun) :=
  ⟨(c6_trainingFailed_iff_below_threshold checkpointShapes acc9).1,
    (c6_trainingFailed_iff_below_threshold checkpointShapes acc9).2.1⟩

/-- Claim C7: On completion of every `train` call the parameters are
written to the checkpoint path (the save is sequenced before the
accept/reject check and its result is discarded), regardless of whether
the call then returns the trained classifier or `TrainingFailed` — both
possible outcomes are listed, and in each the checkpoint write has
happened. -/
theorem c7_checkpoint_saved_regardless
    (fileShapes : List (String × List ℕ)) (acc : ℕ → ℚ) :
    (train fileShapes acc).checkpointSaved = true ∧
      ((train fileShapes acc).result = Except.ok () ∨
        (train fileShapes acc).result
          = Except.error "The model is not trained well enough.") := by
  refine ⟨rfl, ?_⟩
  rw [train_result_eq]
  split_ifs with hc
  · right
    rfl
  · left
    rfl

/-- Claim C8, amended: A checkpoint whose shapes disagree with the
declared architecture is a hard failure for the standalone
`Network::load` (the `?` propagates the load error), but *not* for the
load performed before the training loop: `train` discards the load
result (`_ = varmap.load(&path)`) and proceeds; its outcome is decided
by the accuracy threshold alone. -/
theorem c8_amended (fileShapes : List (String × List ℕ)) (acc : ℕ → ℚ)
    (hmism : fileShapes ≠ checkpointShapes) :
    networkLoad fileShapes = Except.error "shape mismatch" ∧
      ((train fileShapes acc).result = Except.ok ()
        ↔ ¬ (train fileShapes acc).finalAccuracy < 95) := by
  constructor
  · rw [networkLoad, varmapLoad, if_neg hmism]
  · rw [train_result_eq, train_finalAccuracy_eq]
    split_ifs with hc
    · simp [hc]
    · simp [hc]

/-- Counterexample to **C8** as stated: with a checkpoint of entirely
wrong shapes, standalone loading fails hard, yet `train` does not — on
an accuracy trace reaching 100% it returns the trained classifier
(`Ok`), because `_ = varmap.load(&path)` throws the load error away. -/
theorem c8_counterexample :
    networkLoad [("bogus", [1])] = Except.error "shape mismatch" ∧
      (train [("bogus", [1])] fun _ => 100).result = Except.ok () := by
  constructor
  · rfl
  · rw [train_result_eq, show EPOCHS = 9 + 1 from rfl, runLoop_succ]
    norm_num

/-- Witness for C8 (amended) at concrete mismatched shapes and the
constant-100% accuracy trace. -/
theorem c8_amended_witness :
    ([("bogus", [1])] ≠ checkpointShapes) ∧
      (networkLoad [("bogus", [1])] = Except.error "shape mismatch" ∧
        ((train [("bogus", [1])] fun _ => 100).result = Except.ok ()
          ↔ ¬ (train [("bogus", [1])] fun _ => 100).finalAccuracy < 95)) :=
  ⟨fun hcontra => List.noConfusion (by injection hcontra),
    c8_amended [("bogus", [1])] (fun _ => 100)
      (fun hcontra => List.noConfusion (by injection hcontra))⟩

/-- Claim C9: The training loop never executes more than the fixed
maximum of `EPOCHS = 10` epochs, and if the test accuracy of some epoch
`e` is exactly 100%, the loop stops at or before epoch `e` — no further
epoch executes. -/
theorem c9_epoch_cap_and_early_stop
    (fileShapes : List (String × List ℕ)) (acc : ℕ → ℚ) :
    (train fileShapes acc).epochsRun ≤ 10 ∧
      ∀ e, 1 ≤ e → e ≤ 10 → acc e = 100 → (train fileShapes acc).epochsRun ≤ e := by
  obtain ⟨h1, h2, h3, h4, h5⟩ := runLoop_char acc EPOCHS 1 0 (by decide)
  rw [train_epochsRun_eq]
  refine ⟨h1, ?_⟩
  intro e he1 he2 hacc
  by_contra hgt
  push_neg at hgt
  exact absurd hacc (h4 e (by omega) (by omega))

/-- Witness for C9 at the concrete trace `acc9` (100% first reached in
epoch 3). -/
theorem c9_epoch_cap_and_early_stop_witness :
    ((1 : ℕ) ≤ 3 ∧ (3 : ℕ) ≤ 10 ∧ acc9 3 = 100) ∧
      (train checkpointShapes acc9).epochsRun ≤ 3 ∧
      (train checkpointShapes acc9).epochsRun ≤ 10 :=
  ⟨⟨by norm_num, by norm_num, by norm_num [acc9]⟩,
    (c9_epoch_cap_and_early_stop checkpointShapes acc9).2 3 (by norm_num) (by norm_num)
      (by norm_num [acc9]),
    (c9_epoch_cap_and_early_stop checkpointShapes acc9).1⟩
